import Mathlib

/-!
Verification development for a single-threaded mio-based WebSocket handshake
server (`src/main.rs`).  The Rust source is shallowly embedded: machine bytes
and 32-bit words are `Nat` with explicit `% 2^32`, socket I/O is modelled by
explicit scripts of read outcomes, and the event loop is a step function on a
server state.  External crates (`sha1`, `rustc_serialize::base64`,
`http_muncher`, `mio`) are out of the repository; where their behaviour
decides a claim they are modelled from the specification, as marked in the
doc comments.
-/

set_option maxRecDepth 100000

/-- Bytes of an ASCII string, as the Rust `str::as_bytes` produces for the
ASCII-only strings appearing in this program. -/
def asBytes (s : String) : List Nat :=
  s.data.map Char.toNat

/-- Truncation to a 32-bit word. -/
def w32 (n : Nat) : Nat := n % 4294967296

/-- Left rotation of a 32-bit word by `k` bits. -/
def rotl (k x : Nat) : Nat := w32 (x * 2 ^ k + x / 2 ^ (32 - k))

/-- Modelled from the spec: the `sha1` crate is consumed as a pure function;
this is the standard SHA-1 initial state (FIPS 180). -/
def sha1init : Nat × Nat × Nat × Nat × Nat :=
  (0x67452301, 0xEFCDAB89, 0x98BADCFE, 0x10325476, 0xC3D2E1F0)

/-- Big-endian 32-bit words of a byte block. -/
def bytesToWords : List Nat → List Nat
  | b0 :: b1 :: b2 :: b3 :: rest =>
      (((b0 * 256 + b1) * 256 + b2) * 256 + b3) :: bytesToWords rest
  | _ => []

/-- Message-schedule extension; `acc` holds the words produced so far, most
recent first. -/
def extendWords : Nat → List Nat → List Nat
  | 0, acc => acc
  | n + 1, acc =>
      let w := rotl 1 ((acc.getD 2 0) ^^^ (acc.getD 7 0) ^^^ (acc.getD 13 0) ^^^ (acc.getD 15 0))
      extendWords n (w :: acc)

/-- Round function and constant of SHA-1 round `i`. -/
def sha1round (i b c d : Nat) : Nat × Nat :=
  if i < 20 then ((b &&& c) ||| ((b ^^^ 4294967295) &&& d), 0x5A827999)
  else if i < 40 then (b ^^^ c ^^^ d, 0x6ED9EBA1)
  else if i < 60 then ((b &&& c) ||| (b &&& d) ||| (c &&& d), 0x8F1BBCDC)
  else (b ^^^ c ^^^ d, 0xCA62C1D6)

/-- The 80 SHA-1 rounds over the extended schedule. -/
def sha1rounds : Nat → List Nat → Nat × Nat × Nat × Nat × Nat → Nat × Nat × Nat × Nat × Nat
  | _, [], st => st
  | i, w :: ws, (a, b, c, d, e) =>
      let fk := sha1round i b c d
      sha1rounds (i + 1) ws (w32 (rotl 5 a + fk.1 + e + fk.2 + w), a, rotl 30 b, c, d)

/-- SHA-1 compression of one 64-byte block. -/
def sha1compress (h : Nat × Nat × Nat × Nat × Nat) (block : List Nat) :
    Nat × Nat × Nat × Nat × Nat :=
  let ws := (extendWords 64 ((bytesToWords block).reverse)).reverse
  let r := sha1rounds 0 ws h
  (w32 (h.1 + r.1), w32 (h.2.1 + r.2.1), w32 (h.2.2.1 + r.2.2.1),
   w32 (h.2.2.2.1 + r.2.2.2.1), w32 (h.2.2.2.2 + r.2.2.2.2))

/-- Iterated compression over `n` 64-byte blocks. -/
def sha1blocks : Nat → (Nat × Nat × Nat × Nat × Nat) → List Nat → Nat × Nat × Nat × Nat × Nat
  | 0, h, _ => h
  | n + 1, h, msg => sha1blocks n (sha1compress h (msg.take 64)) (msg.drop 64)

/-- Big-endian bytes of a number, `k` bytes wide. -/
def beBytes : Nat → Nat → List Nat
  | 0, _ => []
  | k + 1, n => beBytes k (n / 256) ++ [n % 256]

/-- SHA-1 padding: `0x80`, zeros to 56 mod 64, then the bit length. -/
def padMsg (msg : List Nat) : List Nat :=
  msg ++ [128] ++ List.replicate ((119 - msg.length % 64) % 64) 0 ++ beBytes 8 (8 * msg.length)

/-- Modelled from the spec: the SHA-1 digest consumed by `gen_key`, per
FIPS 180 / RFC 3174, required by the spec to reproduce the RFC6455 vector. -/
def sha1 (msg : List Nat) : List Nat :=
  let p := padMsg msg
  let h := sha1blocks (p.length / 64) sha1init p
  beBytes 4 h.1 ++ beBytes 4 h.2.1 ++ beBytes 4 h.2.2.1 ++ beBytes 4 h.2.2.2.1 ++ beBytes 4 h.2.2.2.2

/-- Character of the standard base64 alphabet. -/
def b64char (n : Nat) : Nat :=
  if n < 26 then 65 + n
  else if n < 52 then 97 + (n - 26)
  else if n < 62 then 48 + (n - 52)
  else if n = 62 then 43 else 47

/-- Modelled from the spec: `rustc_serialize`'s `to_base64(STANDARD)`,
standard alphabet with `=` padding. -/
def base64encode : List Nat → List Nat
  | b0 :: b1 :: b2 :: rest =>
      b64char (b0 / 4) :: b64char ((b0 % 4) * 16 + b1 / 16) ::
        b64char ((b1 % 16) * 4 + b2 / 64) :: b64char (b2 % 64) :: base64encode rest
  | [b0, b1] => [b64char (b0 / 4), b64char ((b0 % 4) * 16 + b1 / 16), b64char ((b1 % 16) * 4), 61]
  | [b0] => [b64char (b0 / 4), b64char ((b0 % 4) * 16), 61, 61]
  | [] => []

/-- The RFC6455 magic GUID appended to the client key (`src/main.rs:22`). -/
def MAGIC : List Nat := asBytes "258EAFA5-E914-47DA-95CA-C5AB0DC85B11"

/-- Embedding of `gen_key` (`src/main.rs:17-27`): SHA-1 over the client key
followed by the magic GUID, then base64. -/
def gen_key (key : List Nat) : List Nat :=
  base64encode (sha1 (key ++ MAGIC))

/-- Header maps are `HashMap<String, String>` in the source; modelled as an
association list with insert-replaces-existing-key (last write wins). -/
def insertHeader (m : List (List Nat × List Nat)) (k v : List Nat) :
    List (List Nat × List Nat) :=
  match m with
  | [] => [(k, v)]
  | (k', v') :: rest => if k' = k then (k, v) :: rest else (k', v') :: insertHeader rest k v

/-- Lookup in the header map, `HashMap::get`. -/
def getHeader (m : List (List Nat × List Nat)) (k : List Nat) : Option (List Nat) :=
  match m with
  | [] => none
  | (k', v') :: rest => if k' = k then some v' else getHeader rest k

/-- Phase of the incremental header tokenizer.  Modelled from the spec:
`http_muncher::Parser` is external; the spec describes it as an incremental
scanner of the request line and `name: value` header lines ended by an empty
line. -/
inductive CodecPhase where
  | reqLine | reqLineCR | fieldStart | fieldName | afterColon | value | valueCR | endCR
  | done | failed
deriving DecidableEq

/-- State of the codec together with the state of the repository's
`HttpParser` callback handler (`src/main.rs:29-51`): `current_key` is the
last header field name delivered by `on_header_field`, `headers` is the
shared header map filled by `on_header_value`. -/
structure CodecState where
  phase : CodecPhase
  nameAcc : List Nat
  valueAcc : List Nat
  current_key : Option (List Nat)
  headers : List (List Nat × List Nat)
  complete : Bool
deriving DecidableEq

/-- Embedding of `HttpParser::on_header_field` (`src/main.rs:35-38`): the
delivered field name replaces `current_key`. -/
def on_header_field (st : CodecState) (s : List Nat) : CodecState :=
  { st with current_key := some s }

/-- Embedding of `HttpParser::on_header_value` (`src/main.rs:40-46`): the
value is inserted under `current_key` (whose `unwrap` cannot fail here: the
codec always delivers a field name before its value). -/
def on_header_value (st : CodecState) (s : List Nat) : CodecState :=
  match st.current_key with
  | some k => { st with headers := insertHeader st.headers k s }
  | none => st

/-- Modelled from the spec: one byte of incremental parsing.  Each completed
field name is delivered to `on_header_field` once, each completed value to
`on_header_value` once, so a field delivered in one chunk is associated with
its value delivered in a later chunk; malformed input moves to an absorbing
`failed` phase; the empty line after the headers sets `complete`. -/
def codecStep (st : CodecState) (b : Nat) : CodecState :=
  match st.phase with
  | .reqLine => if b = 13 then { st with phase := .reqLineCR } else st
  | .reqLineCR => if b = 10 then { st with phase := .fieldStart } else { st with phase := .failed }
  | .fieldStart =>
      if b = 13 then { st with phase := .endCR }
      else if b = 58 then { st with phase := .failed }
      else if b = 10 then { st with phase := .failed }
      else { st with phase := .fieldName, nameAcc := [b] }
  | .fieldName =>
      if b = 58 then { on_header_field st st.nameAcc with phase := .afterColon, nameAcc := [] }
      else if b = 13 then { st with phase := .failed }
      else if b = 10 then { st with phase := .failed }
      else { st with nameAcc := st.nameAcc ++ [b] }
  | .afterColon =>
      if b = 32 then st
      else if b = 13 then { on_header_value st [] with phase := .valueCR, valueAcc := [] }
      else if b = 10 then { st with phase := .failed }
      else { st with phase := .value, valueAcc := [b] }
  | .value =>
      if b = 13 then { on_header_value st st.valueAcc with phase := .valueCR, valueAcc := [] }
      else if b = 10 then { st with phase := .failed }
      else { st with valueAcc := st.valueAcc ++ [b] }
  | .valueCR => if b = 10 then { st with phase := .fieldStart } else { st with phase := .failed }
  | .endCR =>
      if b = 10 then { st with phase := .done, complete := true } else { st with phase := .failed }
  | .done => st
  | .failed => st

/-- Feeding a chunk of bytes to the codec (`Parser::parse`). -/
def parseBytes (st : CodecState) (bs : List Nat) : CodecState :=
  bs.foldl codecStep st

/-- Fresh codec state, as built by `WebSocketClient::new` (`src/main.rs:125-147`). -/
def initCodec : CodecState :=
  ⟨.reqLine, [], [], none, [], false⟩

/-- The `Upgrade` header field name. -/
def upgradeKey : List Nat := asBytes "Upgrade"

/-- Modelled from the spec: `Parser::is_upgrade` — the flag indicating the
handshake headers are complete and the request asked for an upgrade. -/
def is_upgrade (st : CodecState) : Bool :=
  st.complete && (getHeader st.headers upgradeKey).isSome

/-- Handshake state of a connection (`src/main.rs:53-58`). -/
inductive ClientState where
  | AwaitingHandshake | HandshakeResponse | Connected
deriving DecidableEq

/-- Interest set over readable/writable, mio's `EventSet`. -/
structure EventSet where
  isReadable : Bool
  isWritable : Bool
deriving DecidableEq

/-- The singleton readable set, `EventSet::readable()`. -/
def EventSet.readable : EventSet := ⟨true, false⟩

/-- The singleton writable set, `EventSet::writable()`. -/
def EventSet.writable : EventSet := ⟨false, true⟩

/-- Set difference, `EventSet::remove`. -/
def EventSet.remove (s e : EventSet) : EventSet :=
  ⟨s.isReadable && !e.isReadable, s.isWritable && !e.isWritable⟩

/-- Set union, `EventSet::insert`. -/
def EventSet.insert (s e : EventSet) : EventSet :=
  ⟨s.isReadable || e.isReadable, s.isWritable || e.isWritable⟩

/-- A connection: its parser (owning the shared header map), interest set and
handshake state (`src/main.rs:60-66`).  The socket itself is external; its
reads and writes are modelled by explicit scripts and outputs. -/
structure WebSocketClient where
  parser : CodecState
  interest : EventSet
  state : ClientState
deriving DecidableEq

/-- Outcome of one `try_read` call: `Err(e)`, `Ok(None)` (would-block), or
`Ok(Some(len))` with the bytes read. -/
inductive ReadResult where
  | readErr
  | wouldBlock
  | bytes (bs : List Nat)
deriving DecidableEq

/-- Embedding of the loop body of `WebSocketClient::read`
(`src/main.rs:69-95`) over a script of socket read outcomes.  Returns the
updated client and the number of `try_read` calls made: an `Err` logs and
returns, `Ok(None)` breaks, `Ok(Some)` parses the chunk and breaks once the
parser signals an upgrade (flipping state and interest). -/
def readAux : WebSocketClient → List ReadResult → WebSocketClient × Nat
  | c, [] => (c, 0)
  | c, .readErr :: _ => (c, 1)
  | c, .wouldBlock :: _ => (c, 1)
  | c, .bytes bs :: rest =>
      let p := parseBytes c.parser bs
      if is_upgrade p then
        ({ parser := p, state := .HandshakeResponse,
           interest := (c.interest.remove EventSet.readable).insert EventSet.writable }, 1)
      else
        let r := readAux { c with parser := p } rest
        (r.1, r.2 + 1)

/-- The `Sec-WebSocket-Key` header field name (`src/main.rs:103`). -/
def wsKeyBytes : List Nat := asBytes "Sec-WebSocket-Key"

/-- Embedding of `WebSocketClient::write` (`src/main.rs:98-123`).  `none`
models the process panic of `headers.get("Sec-WebSocket-Key").unwrap()` when
the key is absent; otherwise the result carries the bytes passed to
`try_write` and the updated client (state `Connected`, interest readable). -/
def WebSocketClient.write (c : WebSocketClient) : Option (List Nat × WebSocketClient) :=
  match getHeader c.parser.headers wsKeyBytes with
  | none => none
  | some key =>
      some (asBytes "HTTP/1.1 101 Switching Protocols\r\nConnection: Upgrade\r\nSec-WebSocket-Accept: "
              ++ gen_key key ++ asBytes "\r\nUpgrade: websocket\r\n\r\n",
            { c with state := .Connected,
                     interest := (c.interest.remove EventSet.writable).insert EventSet.readable })

/-- A fresh connection, `WebSocketClient::new` (`src/main.rs:125-147`). -/
def initialClient : WebSocketClient :=
  ⟨initCodec, EventSet.readable, .AwaitingHandshake⟩

/-- Insert into the token-to-connection map (`HashMap::insert`). -/
def mapInsert (m : List (Nat × WebSocketClient)) (k : Nat) (v : WebSocketClient) :
    List (Nat × WebSocketClient) :=
  match m with
  | [] => [(k, v)]
  | (k', v') :: rest => if k' = k then (k, v) :: rest else (k', v') :: mapInsert rest k v

/-- Lookup in the token-to-connection map (`HashMap::get_mut`). -/
def mapGet (m : List (Nat × WebSocketClient)) (k : Nat) : Option WebSocketClient :=
  match m with
  | [] => none
  | (k', v') :: rest => if k' = k then some v' else mapGet rest k

/-- The server: token counter and registered clients (`src/main.rs:150-154`). -/
structure ServerState where
  token_counter : Nat
  clients : List (Nat × WebSocketClient)
deriving DecidableEq

/-- Outcome of `TcpListener::accept`: `Ok(Some(..))`, `Ok(None)` or `Err(..)`. -/
inductive AcceptOutcome where
  | okSock | noPending | acceptErr
deriving DecidableEq

/-- A readiness event delivered by the poller, with the socket input it
carries: read-readiness on the listening token (with the accept outcome),
read-readiness on a client token (with the script of `try_read` outcomes),
or write-readiness on a client token. -/
inductive IOEvent where
  | acceptEv (o : AcceptOutcome)
  | readEv (tok : Nat) (script : List ReadResult)
  | writeEv (tok : Nat)
deriving DecidableEq

/-- Result of one `ready` dispatch: the next server state (`none` models a
process panic by `unwrap`/`unreachable!`), the `(token, interest)` passed to
`register`/`reregister`, the bytes passed to `try_write`, and the token
allocated on accept. -/
structure StepResult where
  next : Option ServerState
  rereg : Option (Nat × EventSet)
  written : List Nat
  allocated : Option Nat
deriving DecidableEq

/-- Embedding of `WebSocketServer::ready` (`src/main.rs:166-216`). -/
def dispatch (s : ServerState) (e : IOEvent) : StepResult :=
  match e with
  | .acceptEv o =>
      match o with
      | .acceptErr => ⟨some s, none, [], none⟩
      | .noPending => ⟨none, none, [], none⟩
      | .okSock =>
          let new_token := s.token_counter
          ⟨some ⟨s.token_counter + 1, mapInsert s.clients new_token initialClient⟩,
           some (new_token, EventSet.readable), [], some new_token⟩
  | .readEv tok script =>
      match mapGet s.clients tok with
      | none => ⟨none, none, [], none⟩
      | some c =>
          let c' := (readAux c script).1
          ⟨some ⟨s.token_counter, mapInsert s.clients tok c'⟩, some (tok, c'.interest), [], none⟩
  | .writeEv tok =>
      match mapGet s.clients tok with
      | none => ⟨none, none, [], none⟩
      | some c =>
          match c.write with
          | none => ⟨none, none, [], none⟩
          | some (bs, c') =>
              ⟨some ⟨s.token_counter, mapInsert s.clients tok c'⟩, some (tok, c'.interest), bs, none⟩

/-- The server as built in `main` (`src/main.rs:225-229`): counter 1, no
clients. -/
def initialServer : ServerState := ⟨1, []⟩

/-- Run a sequence of events, collecting the tokens allocated by accepts; a
panic stops the run. -/
def runTok : ServerState → List IOEvent → Option ServerState × List Nat
  | s, [] => (some s, [])
  | s, e :: rest =>
      let r := dispatch s e
      match r.next with
      | none => (none, [])
      | some s' =>
          let t := runTok s' rest
          (t.1, r.allocated.toList ++ t.2)

/-- An event the poller can actually deliver: the listening token is
registered throughout; a client event requires the client registered with
the matching one-shot interest. -/
def enabled (s : ServerState) : IOEvent → Prop
  | .acceptEv _ => True
  | .readEv tok _ => ∃ c, mapGet s.clients tok = some c ∧ c.interest.isReadable = true
  | .writeEv tok => ∃ c, mapGet s.clients tok = some c ∧ c.interest.isWritable = true

/-- Server states reachable from startup by dispatching deliverable events. -/
inductive Reachable : ServerState → Prop where
  | init : Reachable initialServer
  | step {s e s'} : Reachable s → enabled s e → (dispatch s e).next = some s' → Reachable s'

/-- Interest matches the handshake state: readable in `AwaitingHandshake` and
`Connected`, writable in `HandshakeResponse`. -/
def ClientInv (c : WebSocketClient) : Prop :=
  (c.state = .AwaitingHandshake ∨ c.state = .Connected → c.interest = EventSet.readable) ∧
  (c.state = .HandshakeResponse → c.interest = EventSet.writable)

/-- Server invariant: every registered client satisfies `ClientInv` and its
token is below the counter. -/
def ServerInv (s : ServerState) : Prop :=
  (∀ tok c, mapGet s.clients tok = some c → ClientInv c) ∧
  (∀ tok c, mapGet s.clients tok = some c → tok < s.token_counter)

/-- The client state transitions one dispatch can cause: unchanged, the two
forward handshake steps, or the post-handshake fall-back from `Connected` to
`HandshakeResponse` on a read that delivers data. -/
def transOK (a b : ClientState) : Prop :=
  b = a ∨ (a = .AwaitingHandshake ∧ b = .HandshakeResponse) ∨
    (a = .HandshakeResponse ∧ b = .Connected) ∨ (a = .Connected ∧ b = .HandshakeResponse)

/-- One header line `name: value\r\n`. -/
def headerLine (k v : List Nat) : List Nat :=
  k ++ 58 :: 32 :: (v ++ [13, 10])

/-- The header block of a request. -/
def linesOf (hdrs : List (List Nat × List Nat)) : List Nat :=
  (hdrs.map fun p => headerLine p.1 p.2).flatten

/-- A logically complete, well-formed upgrade request: request line, header
lines, blank line. -/
def requestBytes (rl : List Nat) (hdrs : List (List Nat × List Nat)) : List Nat :=
  rl ++ 13 :: 10 :: (linesOf hdrs ++ [13, 10])

/-- Well-formed header field name: nonempty, no CR, LF or colon. -/
def goodName (k : List Nat) : Prop :=
  k ≠ [] ∧ ∀ b ∈ k, b ≠ 13 ∧ b ≠ 10 ∧ b ≠ 58

/-- Well-formed header value: no CR or LF, not starting with a space. -/
def goodValue (v : List Nat) : Prop :=
  (∀ b ∈ v, b ≠ 13 ∧ b ≠ 10) ∧ v.head? ≠ some 32

instance (k : List Nat) : Decidable (goodName k) := by
  unfold goodName
  exact inferInstance

instance (v : List Nat) : Decidable (goodValue v) := by
  unfold goodValue
  exact inferInstance

/-- The header map resulting from inserting the given pairs in order. -/
def insertAll (hs : List (List Nat × List Nat)) (hdrs : List (List Nat × List Nat)) :
    List (List Nat × List Nat) :=
  hdrs.foldl (fun m p => insertHeader m p.1 p.2) hs

/-- The `current_key` left behind after parsing the given header lines. -/
def ckAfter (hdrs : List (List Nat × List Nat)) (ck : Option (List Nat)) : Option (List Nat) :=
  hdrs.foldl (fun _ p => some p.1) ck

/-- A codec state between header lines: a given phase, empty accumulators. -/
def mkState (ph : CodecPhase) (ck : Option (List Nat)) (hs : List (List Nat × List Nat)) :
    CodecState :=
  ⟨ph, [], [], ck, hs, false⟩

/-- Delivering one chunk as its own read-readiness event. -/
def feedChunk (c : WebSocketClient) (bs : List Nat) : WebSocketClient :=
  (readAux c [ReadResult.bytes bs]).1

/-- The client after its chunks have arrived as successive read events. -/
def clientAfterChunks (chunks : List (List Nat)) : WebSocketClient :=
  chunks.foldl feedChunk initialClient

/-- The client a fresh connection becomes after the given bytes arrived, as a
function of the bytes alone. -/
def mkClientResult (bs : List Nat) : WebSocketClient :=
  let p := parseBytes initCodec bs
  if is_upgrade p then ⟨p, ⟨false, true⟩, .HandshakeResponse⟩
  else ⟨p, ⟨true, false⟩, .AwaitingHandshake⟩

/-- Sample client key from RFC6455 §1.3, used in the spec's test vector. -/
def sampleKey : List Nat := asBytes "dGhlIHNhbXBsZSBub25jZQ=="

/-- Request line of the sample upgrade request. -/
def sampleRl : List Nat := asBytes "GET / HTTP/1.1"

/-- Headers of the sample upgrade request. -/
def sampleHdrs : List (List Nat × List Nat) :=
  [(asBytes "Upgrade", asBytes "websocket"), (asBytes "Sec-WebSocket-Key", sampleKey)]

/-- The sample upgrade request as one byte sequence. -/
def sampleRequest : List Nat := requestBytes sampleRl sampleHdrs

/-- The sample request split at awkward places: mid request line end, mid
header field name, mid header value, and between CR and LF. -/
def sampleChunks : List (List Nat) :=
  [asBytes "GET / HTTP/1.1\r\nUpgr", asBytes "ade: webso",
   asBytes "cket\r\nSec-WebSocket-Key: dGhlIHNhbXBsZSBub25jZQ==\r", asBytes "\n\r\n"]

/-- The client once the sample request has fully arrived. -/
def sampleClient : WebSocketClient := clientAfterChunks [sampleRequest]

/-- The sample client past its handshake: state `Connected`, readable
interest. -/
def sampleConnected : WebSocketClient :=
  { sampleClient with state := .Connected, interest := EventSet.readable }

/-- A server with one freshly accepted client that has sent nothing yet. -/
def oneClientServer : ServerState := ⟨2, [(1, initialClient)]⟩

/-- A server whose single client is already `Connected`. -/
def connectedServer : ServerState := ⟨2, [(1, sampleConnected)]⟩

/-- The state an event leads to (the state itself if the dispatch panicked). -/
def afterEv (s : ServerState) (e : IOEvent) : ServerState :=
  ((dispatch s e).next).getD s

/-- The handshake state of the connection registered under a token. -/
def stateAt (s : ServerState) (tok : Nat) : Option ClientState :=
  (mapGet s.clients tok).map fun c => c.state

/-- Read event delivering the whole sample request, then would-block. -/
def cxEv2 : IOEvent := .readEv 1 [.bytes sampleRequest, .wouldBlock]

/-- Write event for the sample connection. -/
def cxEv3 : IOEvent := .writeEv 1

/-- Read event delivering one further data byte after the handshake. -/
def cxEv4 : IOEvent := .readEv 1 [.bytes (asBytes "x"), .wouldBlock]

/-- Server after accepting the sample connection. -/
def cx_s1 : ServerState := afterEv initialServer (.acceptEv .okSock)

/-- Server after the sample request arrived. -/
def cx_s2 : ServerState := afterEv cx_s1 cxEv2

/-- Server after the 101 response was written. -/
def cx_s3 : ServerState := afterEv cx_s2 cxEv3

/-- Server after one more byte arrived on the connected socket. -/
def cx_s4 : ServerState := afterEv cx_s3 cxEv4

theorem parseBytes_nil (st : CodecState) : parseBytes st [] = st := rfl

theorem parseBytes_cons (st : CodecState) (b : Nat) (bs : List Nat) :
    parseBytes st (b :: bs) = parseBytes (codecStep st b) bs := rfl

theorem parseBytes_append (st : CodecState) (a b : List Nat) :
    parseBytes st (a ++ b) = parseBytes (parseBytes st a) b := by
  simp [parseBytes]

theorem codecStep_done (st : CodecState) (b : Nat) (h : st.phase = .done) :
    codecStep st b = st := by
  unfold codecStep
  rw [h]

theorem done_absorb (bs : List Nat) (st : CodecState) (h : st.phase = .done) :
    parseBytes st bs = st := by
  induction bs with
  | nil => rfl
  | cons b bs ih => rw [parseBytes_cons, codecStep_done st b h, ih]

theorem codecStep_complete_done (st : CodecState) (b : Nat)
    (h : st.complete = true → st.phase = .done) :
    (codecStep st b).complete = true → (codecStep st b).phase = .done := by
  unfold codecStep
  cases hp : st.phase <;> simp only
  case reqLine =>
    split <;> simp_all
  case reqLineCR =>
    split <;> simp_all
  case fieldStart =>
    split
    · simp_all
    · split
      · simp_all
      · split <;> simp_all
  case fieldName =>
    split
    · simp [on_header_field]; simp_all
    · split
      · simp_all
      · split <;> simp_all
  case afterColon =>
    split
    · simp_all
    · split
      · unfold on_header_value
        split <;> simp_all
      · split <;> simp_all
  case value =>
    split
    · unfold on_header_value
      split <;> simp_all
    · split <;> simp_all
  case valueCR =>
    split <;> simp_all
  case endCR =>
    split <;> simp_all
  case done => simp_all
  case failed => simp_all

theorem parse_complete_done (bs : List Nat) (st : CodecState)
    (h : st.complete = true → st.phase = .done) :
    (parseBytes st bs).complete = true → (parseBytes st bs).phase = .done := by
  induction bs generalizing st with
  | nil => exact h
  | cons b bs ih => exact ih (codecStep st b) (codecStep_complete_done st b h)

theorem initCodec_complete_done :
    (initCodec.complete = true → initCodec.phase = .done) := by
  intro h
  simp [initCodec] at h

theorem parse_of_complete (a bs : List Nat)
    (h : (parseBytes initCodec a).complete = true) :
    parseBytes initCodec (a ++ bs) = parseBytes initCodec a := by
  rw [parseBytes_append]
  exact done_absorb bs _ (parse_complete_done a initCodec initCodec_complete_done h)

theorem is_upgrade_mono (a bs : List Nat)
    (h : is_upgrade (parseBytes initCodec a) = true) :
    is_upgrade (parseBytes initCodec (a ++ bs)) = true := by
  have hc : (parseBytes initCodec a).complete = true := by
    unfold is_upgrade at h
    exact (Bool.and_eq_true _ _ |>.mp h).1
  rw [parse_of_complete a bs hc]
  exact h

theorem step_reqLine_ne (st : CodecState) (b : Nat) (hp : st.phase = .reqLine) (hb : b ≠ 13) :
    codecStep st b = st := by
  unfold codecStep
  rw [hp]
  simp [hb]

theorem scan_reqLine : ∀ (bs : List Nat) (st : CodecState), st.phase = .reqLine →
    (∀ b ∈ bs, b ≠ 13) → parseBytes st bs = st := by
  intro bs
  induction bs with
  | nil => intro st _ _; rfl
  | cons b bs ih =>
      intro st hp h
      rw [parseBytes_cons, step_reqLine_ne st b hp (h b (by simp))]
      exact ih st hp fun x hx => h x (by simp [hx])

theorem step_fieldName_ne {na va : List Nat} {ck} {hs} {co} {b : Nat}
    (h58 : b ≠ 58) (h13 : b ≠ 13) (h10 : b ≠ 10) :
    codecStep ⟨.fieldName, na, va, ck, hs, co⟩ b = ⟨.fieldName, na ++ [b], va, ck, hs, co⟩ := by
  simp [codecStep, h58, h13, h10]

theorem scan_name : ∀ (bs : List Nat) {na va : List Nat} {ck} {hs} {co},
    (∀ b ∈ bs, b ≠ 13 ∧ b ≠ 10 ∧ b ≠ 58) →
    parseBytes ⟨.fieldName, na, va, ck, hs, co⟩ bs = ⟨.fieldName, na ++ bs, va, ck, hs, co⟩ := by
  intro bs
  induction bs with
  | nil => intro na va ck hs co _; simp [parseBytes_nil]
  | cons b bs ih =>
      intro na va ck hs co h
      have hb := h b (by simp)
      rw [parseBytes_cons, step_fieldName_ne hb.2.2 hb.1 hb.2.1,
          ih fun x hx => h x (by simp [hx])]
      simp

theorem step_value_ne {na va : List Nat} {ck} {hs} {co} {b : Nat}
    (h13 : b ≠ 13) (h10 : b ≠ 10) :
    codecStep ⟨.value, na, va, ck, hs, co⟩ b = ⟨.value, na, va ++ [b], ck, hs, co⟩ := by
  simp [codecStep, h13, h10]

theorem scan_value : ∀ (bs : List Nat) {na va : List Nat} {ck} {hs} {co},
    (∀ b ∈ bs, b ≠ 13 ∧ b ≠ 10) →
    parseBytes ⟨.value, na, va, ck, hs, co⟩ bs = ⟨.value, na, va ++ bs, ck, hs, co⟩ := by
  intro bs
  induction bs with
  | nil => intro na va ck hs co _; simp [parseBytes_nil]
  | cons b bs ih =>
      intro na va ck hs co h
      have hb := h b (by simp)
      rw [parseBytes_cons, step_value_ne hb.1 hb.2, ih fun x hx => h x (by simp [hx])]
      simp

theorem step_reqLine_CR {na va : List Nat} {ck} {hs} {co} :
    codecStep ⟨.reqLine, na, va, ck, hs, co⟩ 13 = ⟨.reqLineCR, na, va, ck, hs, co⟩ := by
  simp [codecStep]

theorem step_reqLineCR_LF {na va : List Nat} {ck} {hs} {co} :
    codecStep ⟨.reqLineCR, na, va, ck, hs, co⟩ 10 = ⟨.fieldStart, na, va, ck, hs, co⟩ := by
  simp [codecStep]

theorem step_fieldStart_ne {na va : List Nat} {ck} {hs} {co} {b : Nat}
    (h13 : b ≠ 13) (h58 : b ≠ 58) (h10 : b ≠ 10) :
    codecStep ⟨.fieldStart, na, va, ck, hs, co⟩ b = ⟨.fieldName, [b], va, ck, hs, co⟩ := by
  simp [codecStep, h13, h58, h10]

theorem step_fieldStart_CR {na va : List Nat} {ck} {hs} {co} :
    codecStep ⟨.fieldStart, na, va, ck, hs, co⟩ 13 = ⟨.endCR, na, va, ck, hs, co⟩ := by
  simp [codecStep]

theorem step_fieldName_colon {na va : List Nat} {ck} {hs} {co} :
    codecStep ⟨.fieldName, na, va, ck, hs, co⟩ 58 = ⟨.afterColon, [], va, some na, hs, co⟩ := by
  simp [codecStep, on_header_field]

theorem step_afterColon_space {na va : List Nat} {ck} {hs} {co} :
    codecStep ⟨.afterColon, na, va, ck, hs, co⟩ 32 = ⟨.afterColon, na, va, ck, hs, co⟩ := by
  simp [codecStep]

theorem step_afterColon_CR {na va k : List Nat} {hs} {co} :
    codecStep ⟨.afterColon, na, va, some k, hs, co⟩ 13 =
      ⟨.valueCR, na, [], some k, insertHeader hs k [], co⟩ := by
  simp [codecStep, on_header_value]

theorem step_afterColon_val {na va : List Nat} {ck} {hs} {co} {b : Nat}
    (h32 : b ≠ 32) (h13 : b ≠ 13) (h10 : b ≠ 10) :
    codecStep ⟨.afterColon, na, va, ck, hs, co⟩ b = ⟨.value, na, [b], ck, hs, co⟩ := by
  simp [codecStep, h32, h13, h10]

theorem step_value_CR {na va k : List Nat} {hs} {co} :
    codecStep ⟨.value, na, va, some k, hs, co⟩ 13 =
      ⟨.valueCR, na, [], some k, insertHeader hs k va, co⟩ := by
  simp [codecStep, on_header_value]

theorem step_valueCR_LF {na va : List Nat} {ck} {hs} {co} :
    codecStep ⟨.valueCR, na, va, ck, hs, co⟩ 10 = ⟨.fieldStart, na, va, ck, hs, co⟩ := by
  simp [codecStep]

theorem step_endCR_LF {na va : List Nat} {ck} {hs} {co} :
    codecStep ⟨.endCR, na, va, ck, hs, co⟩ 10 = ⟨.done, na, va, ck, hs, true⟩ := by
  simp [codecStep]

theorem header_line_parse (k v : List Nat) (ck : Option (List Nat))
    (hs : List (List Nat × List Nat)) (hk : goodName k) (hv : goodValue v) :
    parseBytes (mkState .fieldStart ck hs) (headerLine k v) =
      mkState .fieldStart (some k) (insertHeader hs k v) := by
  obtain ⟨hne, hmem⟩ := hk
  obtain ⟨hvmem, hvhead⟩ := hv
  cases k with
  | nil => exact absurd rfl hne
  | cons kh kt =>
      have hkh := hmem kh (by simp)
      have hline : headerLine (kh :: kt) v = kh :: (kt ++ 58 :: 32 :: (v ++ [13, 10])) := by
        simp [headerLine]
      rw [mkState, hline, parseBytes_cons, step_fieldStart_ne hkh.1 hkh.2.2 hkh.2.1,
          parseBytes_append, scan_name kt fun x hx => hmem x (by simp [hx]),
          List.singleton_append, parseBytes_cons, step_fieldName_colon, parseBytes_cons,
          step_afterColon_space]
      cases v with
      | nil =>
          rw [List.nil_append, parseBytes_cons, step_afterColon_CR, parseBytes_cons,
              step_valueCR_LF, parseBytes_nil, mkState]
      | cons vh vt =>
          have hvh32 : vh ≠ 32 := by simpa using hvhead
          have hvh := hvmem vh (by simp)
          rw [List.cons_append, parseBytes_cons, step_afterColon_val hvh32 hvh.1 hvh.2,
              parseBytes_append, scan_value vt fun x hx => hvmem x (by simp [hx]),
              List.singleton_append, parseBytes_cons, step_value_CR, parseBytes_cons,
              step_valueCR_LF, parseBytes_nil, mkState]

theorem lines_parse : ∀ (hdrs : List (List Nat × List Nat)) (ck : Option (List Nat)) hs,
    (∀ p ∈ hdrs, goodName p.1 ∧ goodValue p.2) →
    parseBytes (mkState .fieldStart ck hs) (linesOf hdrs) =
      mkState .fieldStart (ckAfter hdrs ck) (insertAll hs hdrs) := by
  intro hdrs
  induction hdrs with
  | nil => intro ck hs _; simp [linesOf, insertAll, ckAfter, parseBytes_nil]
  | cons p rest ih =>
      intro ck hs h
      have h1 : linesOf (p :: rest) = headerLine p.1 p.2 ++ linesOf rest := by
        simp [linesOf]
      rw [h1, parseBytes_append,
          header_line_parse p.1 p.2 ck hs (h p (by simp)).1 (h p (by simp)).2,
          ih (some p.1) (insertHeader hs p.1 p.2) fun q hq => h q (by simp [hq])]
      simp [insertAll, ckAfter]

theorem prefix_split {α : Type} : ∀ (a p b : List α), p <+: a ++ b →
    p <+: a ∨ ∃ q, p = a ++ q ∧ q <+: b := by
  intro a
  induction a with
  | nil =>
      intro p b h
      exact Or.inr ⟨p, rfl, h⟩
  | cons x xs ih =>
      intro p b h
      cases p with
      | nil => exact Or.inl List.nil_prefix
      | cons y ys =>
          obtain ⟨t, ht⟩ := h
          simp only [List.cons_append] at ht
          obtain ⟨hy, hrest⟩ := List.cons.inj ht
          subst hy
          rcases ih ys b ⟨t, hrest⟩ with h1 | ⟨q, hq1, hq2⟩
          · obtain ⟨t', ht'⟩ := h1
            exact Or.inl ⟨t', by simp [List.cons_append, ht']⟩
          · exact Or.inr ⟨q, by simp [hq1], hq2⟩

theorem prefix_cons {α : Type} (x : α) (l q : List α) (h : q <+: x :: l) :
    q = [] ∨ ∃ q', q = x :: q' ∧ q' <+: l := by
  cases q with
  | nil => exact Or.inl rfl
  | cons y ys =>
      obtain ⟨t, ht⟩ := h
      simp only [List.cons_append] at ht
      obtain ⟨hy, hrest⟩ := List.cons.inj ht
      subst hy
      exact Or.inr ⟨ys, rfl, ⟨t, hrest⟩⟩

theorem prefix_pair {α : Type} (x y : α) (q : List α) (h : q <+: [x, y]) :
    q = [] ∨ q = [x] ∨ q = [x, y] := by
  rcases prefix_cons x [y] q h with rfl | ⟨q', rfl, h'⟩
  · exact Or.inl rfl
  · rcases prefix_cons y [] q' h' with rfl | ⟨q'', rfl, h''⟩
    · exact Or.inr (Or.inl rfl)
    · obtain ⟨t, ht⟩ := h''
      rcases List.append_eq_nil.mp ht with ⟨rfl, -⟩
      exact Or.inr (Or.inr rfl)

theorem name_parse (k : List Nat) (ck : Option (List Nat)) (hs : List (List Nat × List Nat))
    (hne : k ≠ []) (hmem : ∀ b ∈ k, b ≠ 13 ∧ b ≠ 10 ∧ b ≠ 58) :
    parseBytes (mkState .fieldStart ck hs) k = ⟨.fieldName, k, [], ck, hs, false⟩ := by
  cases k with
  | nil => exact absurd rfl hne
  | cons kh kt =>
      have hkh := hmem kh (by simp)
      rw [mkState, parseBytes_cons, step_fieldStart_ne hkh.1 hkh.2.2 hkh.2.1,
          scan_name kt fun x hx => hmem x (by simp [hx])]
      simp

theorem line_prefix_incomplete (k v q : List Nat) (ck : Option (List Nat))
    (hs : List (List Nat × List Nat)) (hk : goodName k) (hv : goodValue v)
    (hq : q <+: headerLine k v) :
    (parseBytes (mkState .fieldStart ck hs) q).complete = false := by
  obtain ⟨hne, hmem⟩ := hk
  obtain ⟨hvmem, hvhead⟩ := hv
  rw [headerLine] at hq
  rcases prefix_split k q _ hq with hqk | ⟨q', rfl, hq'⟩
  · cases q with
    | nil => rfl
    | cons qh qt =>
        obtain ⟨t, ht⟩ := hqk
        have hmem' : ∀ b ∈ qh :: qt, b ≠ 13 ∧ b ≠ 10 ∧ b ≠ 58 := by
          intro b hb
          exact hmem b (by rw [← ht]; exact List.mem_append_left t hb)
        have hqh := hmem' qh (by simp)
        rw [mkState, parseBytes_cons, step_fieldStart_ne hqh.1 hqh.2.2 hqh.2.1,
            scan_name qt fun x hx => hmem' x (by simp [hx])]
  · rw [parseBytes_append, name_parse k ck hs hne hmem]
    rcases prefix_cons _ _ _ hq' with rfl | ⟨q₁, rfl, hq₁⟩
    · rfl
    · rw [parseBytes_cons, step_fieldName_colon]
      rcases prefix_cons _ _ _ hq₁ with rfl | ⟨q₂, rfl, hq₂⟩
      · rfl
      · rw [parseBytes_cons, step_afterColon_space]
        rcases prefix_split v q₂ _ hq₂ with hqv | ⟨q₃, rfl, hq₃⟩
        · cases q₂ with
          | nil => rfl
          | cons vh vt =>
              obtain ⟨t, ht⟩ := hqv
              have hvmem' : ∀ b ∈ vh :: vt, b ≠ 13 ∧ b ≠ 10 := by
                intro b hb
                exact hvmem b (by rw [← ht]; exact List.mem_append_left t hb)
              have hvh32 : vh ≠ 32 := by
                rw [← ht] at hvhead
                simpa using hvhead
              have hvh := hvmem' vh (by simp)
              rw [parseBytes_cons, step_afterColon_val hvh32 hvh.1 hvh.2,
                  scan_value vt fun x hx => hvmem' x (by simp [hx])]
        · rw [parseBytes_append]
          cases v with
          | nil =>
              rw [parseBytes_nil]
              rcases prefix_pair 13 10 q₃ hq₃ with rfl | rfl | rfl
              · rfl
              · rw [parseBytes_cons, step_afterColon_CR, parseBytes_nil]
              · rw [parseBytes_cons, step_afterColon_CR, parseBytes_cons, step_valueCR_LF,
                    parseBytes_nil]
          | cons vh vt =>
              have hvh32 : vh ≠ 32 := by simpa using hvhead
              have hvh := hvmem vh (by simp)
              rw [parseBytes_cons, step_afterColon_val hvh32 hvh.1 hvh.2,
                  scan_value vt fun x hx => hvmem x (by simp [hx])]
              rcases prefix_pair 13 10 q₃ hq₃ with rfl | rfl | rfl
              · rfl
              · rw [parseBytes_cons, step_value_CR, parseBytes_nil]
              · rw [parseBytes_cons, step_value_CR, parseBytes_cons, step_valueCR_LF,
                    parseBytes_nil]

theorem section_incomplete : ∀ (hdrs : List (List Nat × List Nat)) (q : List Nat)
    (ck : Option (List Nat)) (hs : List (List Nat × List Nat)),
    (∀ p ∈ hdrs, goodName p.1 ∧ goodValue p.2) →
    q <+: linesOf hdrs ++ [13, 10] → q ≠ linesOf hdrs ++ [13, 10] →
    (parseBytes (mkState .fieldStart ck hs) q).complete = false := by
  intro hdrs
  induction hdrs with
  | nil =>
      intro q ck hs _ hq hne
      simp only [linesOf, List.map_nil, List.flatten_nil, List.nil_append] at hq hne
      rcases prefix_pair 13 10 q hq with rfl | rfl | rfl
      · rfl
      · rw [mkState, parseBytes_cons, step_fieldStart_CR, parseBytes_nil]
      · exact absurd rfl hne
  | cons p rest ih =>
      intro q ck hs h hq hne
      have hlin : linesOf (p :: rest) = headerLine p.1 p.2 ++ linesOf rest := by
        simp [linesOf]
      rw [hlin, List.append_assoc] at hq hne
      rcases prefix_split (headerLine p.1 p.2) q _ hq with hq1 | ⟨q', rfl, hq'⟩
      · exact line_prefix_incomplete p.1 p.2 q ck hs (h p (by simp)).1 (h p (by simp)).2 hq1
      · rw [parseBytes_append,
            header_line_parse p.1 p.2 ck hs (h p (by simp)).1 (h p (by simp)).2]
        exact ih q' (some p.1) (insertHeader hs p.1 p.2) (fun x hx => h x (by simp [hx])) hq'
          fun hcontra => hne (by rw [hcontra])

theorem prefix_incomplete (rl : List Nat) (hdrs : List (List Nat × List Nat)) (p : List Nat)
    (hrl : ∀ b ∈ rl, b ≠ 13)
    (hh : ∀ x ∈ hdrs, goodName x.1 ∧ goodValue x.2)
    (hp : p <+: requestBytes rl hdrs) (hne : p ≠ requestBytes rl hdrs) :
    (parseBytes initCodec p).complete = false := by
  rw [requestBytes] at hp hne
  rcases prefix_split rl p _ hp with hp1 | ⟨q, rfl, hq⟩
  · obtain ⟨t, ht⟩ := hp1
    have : ∀ b ∈ p, b ≠ 13 := by
      intro b hb
      exact hrl b (by rw [← ht]; exact List.mem_append_left t hb)
    rw [scan_reqLine p initCodec rfl this]
    rfl
  · rw [parseBytes_append, scan_reqLine rl initCodec rfl hrl]
    rcases prefix_cons _ _ _ hq with rfl | ⟨q₁, rfl, hq₁⟩
    · rfl
    · show (parseBytes (codecStep ⟨.reqLine, [], [], none, [], false⟩ 13) q₁).complete = false
      rw [step_reqLine_CR]
      rcases prefix_cons _ _ _ hq₁ with rfl | ⟨q₂, rfl, hq₂⟩
      · rfl
      · rw [parseBytes_cons, step_reqLineCR_LF]
        have := section_incomplete hdrs q₂ none [] hh hq₂
          fun hcontra => hne (by rw [hcontra])
        rw [mkState] at this
        exact this

theorem request_parse (rl : List Nat) (hdrs : List (List Nat × List Nat))
    (hrl : ∀ b ∈ rl, b ≠ 13)
    (hh : ∀ p ∈ hdrs, goodName p.1 ∧ goodValue p.2) :
    parseBytes initCodec (requestBytes rl hdrs) =
      ⟨.done, [], [], ckAfter hdrs none, insertAll [] hdrs, true⟩ := by
  unfold requestBytes
  rw [parseBytes_append, scan_reqLine rl initCodec rfl hrl]
  show parseBytes ⟨.reqLine, [], [], none, [], false⟩ _ = _
  rw [parseBytes_cons, step_reqLine_CR, parseBytes_cons, step_reqLineCR_LF, parseBytes_append]
  have := lines_parse hdrs none [] hh
  rw [mkState] at this
  rw [this, mkState, parseBytes_cons, step_fieldStart_CR, parseBytes_cons, step_endCR_LF,
      parseBytes_nil]

theorem evset_to_writable (es : EventSet) :
    (es.remove EventSet.readable).insert EventSet.writable = EventSet.writable := by
  cases es
  simp [EventSet.remove, EventSet.insert, EventSet.readable, EventSet.writable]

theorem evset_to_readable (es : EventSet) :
    (es.remove EventSet.writable).insert EventSet.readable = EventSet.readable := by
  cases es
  simp [EventSet.remove, EventSet.insert, EventSet.readable, EventSet.writable]

theorem readAux_bytes_no (c : WebSocketClient) (bs : List Nat) (rest : List ReadResult)
    (h : is_upgrade (parseBytes c.parser bs) = false) :
    (readAux c (.bytes bs :: rest)).1 =
      (readAux { c with parser := parseBytes c.parser bs } rest).1 := by
  simp [readAux, h]

theorem readAux_bytes_yes (c : WebSocketClient) (bs : List Nat) (rest : List ReadResult)
    (h : is_upgrade (parseBytes c.parser bs) = true) :
    (readAux c (.bytes bs :: rest)).1 =
      ⟨parseBytes c.parser bs, (c.interest.remove EventSet.readable).insert EventSet.writable,
        .HandshakeResponse⟩ := by
  simp [readAux, h]

theorem feedChunk_mk (acc bs : List Nat) :
    feedChunk (mkClientResult acc) bs = mkClientResult (acc ++ bs) := by
  have happ : parseBytes (parseBytes initCodec acc) bs = parseBytes initCodec (acc ++ bs) :=
    (parseBytes_append initCodec acc bs).symm
  cases h : is_upgrade (parseBytes initCodec acc)
  case false =>
      cases h2 : is_upgrade (parseBytes initCodec (acc ++ bs))
      case false =>
          simp [mkClientResult, feedChunk, readAux, h, h2, happ]
      case true =>
          simp [mkClientResult, feedChunk, readAux, h, h2, happ, EventSet.remove,
                EventSet.insert, EventSet.readable, EventSet.writable]
  case true =>
      have hc : (parseBytes initCodec acc).complete = true := by
        rw [is_upgrade] at h
        exact ((Bool.and_eq_true _ _).mp h).1
      have habs : parseBytes initCodec (acc ++ bs) = parseBytes initCodec acc :=
        parse_of_complete acc bs hc
      simp [mkClientResult, feedChunk, readAux, h, habs, happ, EventSet.remove,
            EventSet.insert, EventSet.readable, EventSet.writable]

theorem chunk_track : ∀ (cs : List (List Nat)) (acc : List Nat),
    cs.foldl feedChunk (mkClientResult acc) = mkClientResult (acc ++ cs.flatten) := by
  intro cs
  induction cs with
  | nil => intro acc; simp
  | cons bs cs ih =>
      intro acc
      simp only [List.foldl_cons, List.flatten_cons]
      rw [feedChunk_mk, ih (acc ++ bs)]
      simp [List.append_assoc]

theorem clientAfterChunks_eq (cs : List (List Nat)) :
    clientAfterChunks cs = mkClientResult cs.flatten := by
  have h0 : initialClient = mkClientResult [] := by
    simp [initialClient, mkClientResult, parseBytes_nil, is_upgrade, initCodec, EventSet.readable]
  rw [clientAfterChunks, h0, chunk_track cs []]
  simp

theorem request_upgrade (rl : List Nat) (hdrs : List (List Nat × List Nat))
    (hrl : ∀ b ∈ rl, b ≠ 13)
    (hh : ∀ p ∈ hdrs, goodName p.1 ∧ goodValue p.2)
    (hup : (getHeader (insertAll [] hdrs) upgradeKey).isSome = true) :
    is_upgrade (parseBytes initCodec (requestBytes rl hdrs)) = true := by
  rw [request_parse rl hdrs hrl hh, is_upgrade]
  simp [hup]

theorem take_flatten_prefix (cs : List (List Nat)) (i : Nat) :
    (cs.take i).flatten <+: cs.flatten := by
  conv_rhs => rw [← List.take_append_drop i cs]
  rw [List.flatten_append]
  exact ⟨(cs.drop i).flatten, rfl⟩

/-- C1: the accept-key deriver is exactly
`base64(sha1(client_key ++ "258EAFA5-E914-47DA-95CA-C5AB0DC85B11"))` for every
client key, and on the RFC6455 sample key `dGhlIHNhbXBsZSBub25jZQ==` it yields
exactly `s3pPLMBiTxaQ9kYGzzhZRbK+xOo=`. -/
theorem gen_key_spec :
    (∀ k : List Nat, gen_key k = base64encode (sha1 (k ++ MAGIC))) ∧
    gen_key sampleKey = asBytes "s3pPLMBiTxaQ9kYGzzhZRbK+xOo=" :=
  ⟨fun _ => rfl, by decide⟩

/-- C2: whenever the header map holds a `Sec-WebSocket-Key` value, the write
handler writes exactly the 101 response template with only the derived accept
value substituted, and switches the client to `Connected` with readable
interest. -/
theorem write_response_exact (c : WebSocketClient) (key : List Nat)
    (hk : getHeader c.parser.headers wsKeyBytes = some key) :
    c.write = some
      (asBytes "HTTP/1.1 101 Switching Protocols\r\nConnection: Upgrade\r\nSec-WebSocket-Accept: "
         ++ gen_key key ++ asBytes "\r\nUpgrade: websocket\r\n\r\n",
       { c with state := .Connected,
                interest := (c.interest.remove EventSet.writable).insert EventSet.readable }) := by
  unfold WebSocketClient.write
  rw [hk]

theorem write_response_exact_witness :
    sampleClient.write = some
      (asBytes "HTTP/1.1 101 Switching Protocols\r\nConnection: Upgrade\r\nSec-WebSocket-Accept: "
         ++ gen_key sampleKey ++ asBytes "\r\nUpgrade: websocket\r\n\r\n",
       { sampleClient with
           state := .Connected,
           interest := (sampleClient.interest.remove EventSet.writable).insert
             EventSet.readable }) :=
  write_response_exact sampleClient sampleKey (by decide)

/-- C3: for a well-formed upgrade request split arbitrarily into chunks
delivered by successive read events, the outcome is that of delivering the
whole request at once; the client is in `HandshakeResponse` after a chunk
exactly when the logically complete request has been delivered so far; and
the assembled header map associates each field with its value even when the
two arrive in different chunks. -/
theorem streaming_handshake (rl : List Nat) (hdrs : List (List Nat × List Nat))
    (chunks : List (List Nat))
    (hrl : ∀ b ∈ rl, b ≠ 13)
    (hh : ∀ p ∈ hdrs, goodName p.1 ∧ goodValue p.2)
    (hup : (getHeader (insertAll [] hdrs) upgradeKey).isSome = true)
    (hjoin : chunks.flatten = requestBytes rl hdrs) :
    clientAfterChunks chunks = clientAfterChunks [requestBytes rl hdrs] ∧
    (∀ i, (clientAfterChunks (chunks.take i)).state = ClientState.HandshakeResponse ↔
      (chunks.take i).flatten = requestBytes rl hdrs) ∧
    (clientAfterChunks chunks).parser.headers = insertAll [] hdrs := by
  have hreq_up : is_upgrade (parseBytes initCodec (requestBytes rl hdrs)) = true :=
    request_upgrade rl hdrs hrl hh hup
  refine ⟨?_, ?_, ?_⟩
  · rw [clientAfterChunks_eq, clientAfterChunks_eq, hjoin]
    simp
  · intro i
    rw [clientAfterChunks_eq]
    constructor
    · intro hstate
      by_contra hne
      have hpre : (chunks.take i).flatten <+: requestBytes rl hdrs := by
        rw [← hjoin]
        exact take_flatten_prefix chunks i
      have hfalse := prefix_incomplete rl hdrs _ hrl hh hpre hne
      have hupfalse : is_upgrade (parseBytes initCodec ((chunks.take i).flatten)) = false := by
        rw [is_upgrade, hfalse]
        simp
      simp [mkClientResult, hupfalse] at hstate
    · intro heq
      rw [mkClientResult, heq]
      simp [hreq_up]
  · rw [clientAfterChunks_eq, hjoin]
    simp [mkClientResult, hreq_up]
    rw [request_parse rl hdrs hrl hh]

theorem streaming_handshake_witness :
    (clientAfterChunks sampleChunks).parser.headers = insertAll [] sampleHdrs :=
  (streaming_handshake sampleRl sampleHdrs sampleChunks (by decide) (by decide) (by decide)
    (by decide)).2.2

theorem mapGet_insert_self (m : List (Nat × WebSocketClient)) (k : Nat) (v : WebSocketClient) :
    mapGet (mapInsert m k v) k = some v := by
  induction m with
  | nil => simp [mapInsert, mapGet]
  | cons p rest ih =>
      obtain ⟨k', v'⟩ := p
      by_cases h : k' = k
      · subst h
        simp [mapInsert, mapGet]
      · simp [mapInsert, mapGet, h, ih]

theorem mapGet_insert_other (m : List (Nat × WebSocketClient)) (k k' : Nat) (v : WebSocketClient)
    (h : k' ≠ k) : mapGet (mapInsert m k v) k' = mapGet m k' := by
  induction m with
  | nil => simp [mapInsert, mapGet, Ne.symm h]
  | cons p rest ih =>
      obtain ⟨k'', v''⟩ := p
      by_cases h2 : k'' = k
      · subst h2
        simp [mapInsert, mapGet, Ne.symm h]
      · by_cases h3 : k'' = k'
        · subst h3
          simp [mapInsert, mapGet, h2]
        · simp [mapInsert, mapGet, h2, h3, ih]

theorem readAux_state : ∀ (script : List ReadResult) (c : WebSocketClient),
    ((readAux c script).1.state = c.state ∧ (readAux c script).1.interest = c.interest) ∨
      ((readAux c script).1.state = .HandshakeResponse ∧
        (readAux c script).1.interest = EventSet.writable) := by
  intro script
  induction script with
  | nil => intro c; exact Or.inl ⟨rfl, rfl⟩
  | cons r rest ih =>
      intro c
      cases r with
      | readErr => exact Or.inl ⟨rfl, rfl⟩
      | wouldBlock => exact Or.inl ⟨rfl, rfl⟩
      | bytes bs =>
          cases h : is_upgrade (parseBytes c.parser bs)
          case true =>
              rw [readAux_bytes_yes c bs rest h]
              exact Or.inr ⟨rfl, evset_to_writable c.interest⟩
          case false =>
              rw [readAux_bytes_no c bs rest h]
              exact ih { c with parser := parseBytes c.parser bs }

theorem readAux_inv (script : List ReadResult) (c : WebSocketClient) (h : ClientInv c) :
    ClientInv (readAux c script).1 := by
  rcases readAux_state script c with ⟨h1, h2⟩ | ⟨h1, h2⟩
  · refine ⟨fun hs => ?_, fun hs => ?_⟩
    · rw [h1] at hs
      rw [h2]
      exact h.1 hs
    · rw [h1] at hs
      rw [h2]
      exact h.2 hs
  · refine ⟨fun hs => ?_, fun _ => h2⟩
    · rw [h1] at hs
      rcases hs with hs | hs <;> exact absurd hs (by decide)

theorem write_some (c : WebSocketClient) (bs : List Nat) (c' : WebSocketClient)
    (h : c.write = some (bs, c')) :
    c'.state = .Connected ∧ c'.interest = EventSet.readable := by
  unfold WebSocketClient.write at h
  cases hk : getHeader c.parser.headers wsKeyBytes with
  | none =>
      rw [hk] at h
      exact absurd h (by simp)
  | some key =>
      rw [hk] at h
      obtain ⟨-, hc'⟩ := by simpa using h
      rw [← hc']
      exact ⟨rfl, evset_to_readable c.interest⟩

theorem initialClient_inv : ClientInv initialClient :=
  ⟨fun _ => rfl, fun hs => absurd hs (by decide)⟩

theorem clientInv_of_write (c : WebSocketClient) (bs : List Nat) (c' : WebSocketClient)
    (h : c.write = some (bs, c')) : ClientInv c' := by
  obtain ⟨hs, hi⟩ := write_some c bs c' h
  exact ⟨fun _ => hi, fun hc => absurd (hs ▸ hc) (by decide)⟩

theorem dispatch_inv (s : ServerState) (e : IOEvent) (s' : ServerState)
    (hi : ServerInv s) (hn : (dispatch s e).next = some s') : ServerInv s' := by
  cases e with
  | acceptEv o =>
      cases o with
      | acceptErr =>
          simp [dispatch] at hn
          rw [← hn]
          exact hi
      | noPending => simp [dispatch] at hn
      | okSock =>
          simp [dispatch] at hn
          rw [← hn]
          constructor
          · intro tok c hc
            by_cases ht : tok = s.token_counter
            · subst ht
              rw [mapGet_insert_self] at hc
              cases hc
              exact initialClient_inv
            · rw [mapGet_insert_other _ _ _ _ ht] at hc
              exact hi.1 tok c hc
          · intro tok c hc
            by_cases ht : tok = s.token_counter
            · subst ht
              simp
            · rw [mapGet_insert_other _ _ _ _ ht] at hc
              have := hi.2 tok c hc
              show tok < s.token_counter + 1
              omega
  | readEv tok script =>
      cases hg : mapGet s.clients tok with
      | none => simp [dispatch, hg] at hn
      | some c =>
          simp [dispatch, hg] at hn
          rw [← hn]
          constructor
          · intro tok' c' hc'
            by_cases ht : tok' = tok
            · subst ht
              rw [mapGet_insert_self] at hc'
              cases hc'
              exact readAux_inv script c (hi.1 tok' c hg)
            · rw [mapGet_insert_other _ _ _ _ ht] at hc'
              exact hi.1 tok' c' hc'
          · intro tok' c' hc'
            by_cases ht : tok' = tok
            · subst ht
              exact hi.2 tok' c hg
            · rw [mapGet_insert_other _ _ _ _ ht] at hc'
              exact hi.2 tok' c' hc'
  | writeEv tok =>
      cases hg : mapGet s.clients tok with
      | none => simp [dispatch, hg] at hn
      | some c =>
          cases hw : c.write with
          | none => simp [dispatch, hg, hw] at hn
          | some p =>
              obtain ⟨bs, c2⟩ := p
              simp [dispatch, hg, hw] at hn
              rw [← hn]
              constructor
              · intro tok' c' hc'
                by_cases ht : tok' = tok
                · subst ht
                  rw [mapGet_insert_self] at hc'
                  cases hc'
                  exact clientInv_of_write c bs c2 hw
                · rw [mapGet_insert_other _ _ _ _ ht] at hc'
                  exact hi.1 tok' c' hc'
              · intro tok' c' hc'
                by_cases ht : tok' = tok
                · subst ht
                  exact hi.2 tok' c hg
                · rw [mapGet_insert_other _ _ _ _ ht] at hc'
                  exact hi.2 tok' c' hc'

theorem reachable_inv (s : ServerState) (hr : Reachable s) : ServerInv s := by
  induction hr with
  | init =>
      constructor
      · intro tok c hc
        simp [initialServer, mapGet] at hc
      · intro tok c hc
        simp [initialServer, mapGet] at hc
  | step hr he hn ih =>
      exact dispatch_inv _ _ _ ih hn

theorem runTok_cons (s : ServerState) (e : IOEvent) (rest : List IOEvent) :
    runTok s (e :: rest) =
      match (dispatch s e).next with
      | none => (none, [])
      | some s' =>
          ((runTok s' rest).1, (dispatch s e).allocated.toList ++ (runTok s' rest).2) := rfl

theorem dispatch_alloc (s : ServerState) (e : IOEvent) (s' : ServerState)
    (hn : (dispatch s e).next = some s') :
    s.token_counter ≤ s'.token_counter ∧
    ((dispatch s e).allocated.toList = [] ∨
      ((dispatch s e).allocated.toList = [s.token_counter] ∧
        s'.token_counter = s.token_counter + 1)) := by
  cases e with
  | acceptEv o =>
      cases o with
      | acceptErr =>
          simp [dispatch] at hn ⊢
          rw [← hn]
      | noPending => simp [dispatch] at hn
      | okSock =>
          simp [dispatch] at hn ⊢
          rw [← hn]
          exact ⟨Nat.le_succ _, rfl⟩
  | readEv tok script =>
      cases hg : mapGet s.clients tok with
      | none => simp [dispatch, hg] at hn
      | some c =>
          simp [dispatch, hg] at hn ⊢
          rw [← hn]
  | writeEv tok =>
      cases hg : mapGet s.clients tok with
      | none => simp [dispatch, hg] at hn
      | some c =>
          cases hw : c.write with
          | none => simp [dispatch, hg, hw] at hn
          | some p =>
              obtain ⟨bs, c2⟩ := p
              simp [dispatch, hg, hw] at hn ⊢
              rw [← hn]

theorem runTok_bounds : ∀ (evs : List IOEvent) (s : ServerState),
    (∀ t ∈ (runTok s evs).2, s.token_counter ≤ t) ∧
    List.Chain' (· < ·) (runTok s evs).2 ∧
    (∀ s', (runTok s evs).1 = some s' → s.token_counter ≤ s'.token_counter) := by
  intro evs
  induction evs with
  | nil =>
      intro s
      refine ⟨by simp [runTok], by simp [runTok], ?_⟩
      intro s' h
      simp [runTok] at h
      rw [← h]
  | cons e rest ih =>
      intro s
      cases hnext : (dispatch s e).next with
      | none =>
          rw [runTok_cons, hnext]
          exact ⟨by simp, by simp, fun s' h => by simp at h⟩
      | some s1 =>
          rw [runTok_cons, hnext]
          have hd := dispatch_alloc s e s1 hnext
          have hr := ih s1
          rcases hd.2 with hA | ⟨hA, hC⟩
          · rw [hA]
            simp only [List.nil_append]
            exact ⟨fun t ht => le_trans hd.1 (hr.1 t ht), hr.2.1,
              fun s'' h'' => le_trans hd.1 (hr.2.2 s'' h'')⟩
          · rw [hA]
            simp only [List.singleton_append]
            refine ⟨?_, ?_, ?_⟩
            · intro t ht
              rcases List.mem_cons.mp ht with rfl | ht
              · exact le_refl _
              · have := hr.1 t ht
                omega
            · refine List.chain'_cons'.mpr ⟨?_, hr.2.1⟩
              intro y hy
              have hy' : y ∈ (runTok s1 rest).2 := List.mem_of_mem_head? hy
              have := hr.1 y hy'
              omega
            · intro s'' h''
              have := hr.2.2 s'' h''
              omega

/-- C4: over any event sequence, the tokens allocated at accepts are strictly
increasing in accept order (hence pairwise distinct) and all nonzero; the
counter starts at 1 and never decreases across any dispatch. -/
theorem token_allocation (evs : List IOEvent) :
    List.Chain' (· < ·) (runTok initialServer evs).2 ∧
    (∀ t ∈ (runTok initialServer evs).2, t ≠ 0) ∧
    List.Pairwise (· ≠ ·) (runTok initialServer evs).2 ∧
    initialServer.token_counter = 1 ∧
    (∀ (s : ServerState) (e : IOEvent) (s' : ServerState),
      (dispatch s e).next = some s' → s.token_counter ≤ s'.token_counter) := by
  have h := runTok_bounds evs initialServer
  refine ⟨h.2.1, ?_, ?_, rfl, fun s e s' hn => (dispatch_alloc s e s' hn).1⟩
  · intro t ht
    have h1 : (1 : Nat) ≤ t := h.1 t ht
    omega
  · have hpw : List.Pairwise (· < ·) (runTok initialServer evs).2 :=
      List.chain'_iff_pairwise.mp h.2.1
    exact hpw.imp fun hlt => Nat.ne_of_lt hlt

theorem token_allocation_witness : (1 : Nat) ≠ 0 :=
  (token_allocation [.acceptEv .okSock, .acceptEv .acceptErr, .acceptEv .okSock]).2.1 1
    (by decide)

/-- C5: whatever read or write event is dispatched on a reachable server, the
`(token, interest)` pair passed to re-registration carries the connection's
post-transition interest, which is exactly readable in `AwaitingHandshake`
and `Connected` and exactly writable in `HandshakeResponse`. -/
theorem rearm_interest (s : ServerState) (e : IOEvent) (hr : Reachable s)
    (tok : Nat) (i : EventSet)
    (hq : (dispatch s e).rereg = some (tok, i)) :
    ∃ s' c, (dispatch s e).next = some s' ∧ mapGet s'.clients tok = some c ∧
      i = c.interest ∧
      ((c.state = .AwaitingHandshake ∨ c.state = .Connected) → i = EventSet.readable) ∧
      (c.state = .HandshakeResponse → i = EventSet.writable) := by
  have hi := reachable_inv s hr
  cases e with
  | acceptEv o =>
      cases o with
      | acceptErr => simp [dispatch] at hq
      | noPending => simp [dispatch] at hq
      | okSock =>
          simp [dispatch] at hq
          obtain ⟨htok, hint⟩ := hq
          refine ⟨_, initialClient, rfl, ?_, ?_, ?_, ?_⟩
          · rw [← htok]
            exact mapGet_insert_self s.clients s.token_counter initialClient
          · rw [← hint]
            rfl
          · intro _
            rw [← hint]
          · intro habs
            exact absurd habs (by decide)
  | readEv tok0 script =>
      cases hg : mapGet s.clients tok0 with
      | none => simp [dispatch, hg] at hq
      | some c =>
          simp [dispatch, hg] at hq
          obtain ⟨htok, hint⟩ := hq
          have hci := readAux_inv script c (hi.1 tok0 c hg)
          refine ⟨⟨s.token_counter, mapInsert s.clients tok0 (readAux c script).1⟩,
            (readAux c script).1, by simp [dispatch, hg], ?_, ?_, ?_, ?_⟩
          · rw [← htok]
            exact mapGet_insert_self s.clients tok0 (readAux c script).1
          · rw [← hint]
          · intro hs
            rw [← hint]
            exact hci.1 hs
          · intro hs
            rw [← hint]
            exact hci.2 hs
  | writeEv tok0 =>
      cases hg : mapGet s.clients tok0 with
      | none => simp [dispatch, hg] at hq
      | some c =>
          cases hw : c.write with
          | none => simp [dispatch, hg, hw] at hq
          | some p =>
              obtain ⟨bs, c2⟩ := p
              simp [dispatch, hg, hw] at hq
              obtain ⟨htok, hint⟩ := hq
              have hci := clientInv_of_write c bs c2 hw
              refine ⟨⟨s.token_counter, mapInsert s.clients tok0 c2⟩, c2, ?_, ?_, ?_, ?_, ?_⟩
              · simp [dispatch, hg, hw]
              · rw [← htok]
                exact mapGet_insert_self s.clients tok0 c2
              · rw [← hint]
              · intro hs
                rw [← hint]
                exact hci.1 hs
              · intro hs
                rw [← hint]
                exact hci.2 hs

theorem rearm_interest_witness :
    ∃ s' c, (dispatch initialServer (IOEvent.acceptEv .okSock)).next = some s' ∧
      mapGet s'.clients 1 = some c ∧ EventSet.readable = c.interest ∧
      ((c.state = .AwaitingHandshake ∨ c.state = .Connected) →
        EventSet.readable = EventSet.readable) ∧
      (c.state = .HandshakeResponse → EventSet.readable = EventSet.writable) :=
  rearm_interest initialServer (.acceptEv .okSock) .init 1 EventSet.readable (by decide)

/-- C6 (code bug): on a connection whose header map has no
`Sec-WebSocket-Key`, the write handler hits `unwrap` on `None` and the whole
process panics (dispatch yields no next state, killing every connection),
instead of returning a recoverable `MissingKeyError`. -/
theorem missing_key_panics :
    WebSocketClient.write initialClient = none ∧
    (dispatch oneClientServer (.writeEv 1)).next = none := by
  exact ⟨by decide, by decide⟩

/-- C7 (code bug): a failed accept (`Err`) is logged and the dispatch loop
continues with the server unchanged, but the "no pending connection" outcome
(`Ok(None)`) runs into `unreachable!` and panics the reactor instead of being
skipped as a transient condition. -/
theorem accept_outcomes (s : ServerState) :
    (dispatch s (.acceptEv .acceptErr)).next = some s ∧
    (dispatch s (.acceptEv .acceptErr)).written = [] ∧
    (dispatch s (.acceptEv .noPending)).next = none :=
  ⟨rfl, rfl, rfl⟩

/-- C9: the read loop stops at the first `Err` or would-block outcome: an
`Err` or `Ok(None)` at the head consumes exactly one `try_read` call and
leaves the client untouched; whatever follows the first `Err` or would-block
in the script is never consumed and cannot influence the result. -/
theorem read_stop_conditions :
    (∀ (c : WebSocketClient) (rest : List ReadResult),
      readAux c (.readErr :: rest) = (c, 1)) ∧
    (∀ (c : WebSocketClient) (rest : List ReadResult),
      readAux c (.wouldBlock :: rest) = (c, 1)) ∧
    (∀ (pre : List ReadResult) (c : WebSocketClient) (rest : List ReadResult),
      (readAux c (pre ++ .readErr :: rest)).2 ≤ pre.length + 1) ∧
    (∀ (pre : List ReadResult) (c : WebSocketClient) (rest : List ReadResult),
      (readAux c (pre ++ .wouldBlock :: rest)).2 ≤ pre.length + 1) ∧
    (∀ (pre : List ReadResult) (c : WebSocketClient) (rest rest' : List ReadResult),
      readAux c (pre ++ .readErr :: rest) = readAux c (pre ++ .readErr :: rest')) ∧
    (∀ (pre : List ReadResult) (c : WebSocketClient) (rest rest' : List ReadResult),
      readAux c (pre ++ .wouldBlock :: rest) = readAux c (pre ++ .wouldBlock :: rest')) := by
  have hstopE : ∀ (c : WebSocketClient) (rest : List ReadResult),
      readAux c (.readErr :: rest) = (c, 1) := fun _ _ => rfl
  have hstopW : ∀ (c : WebSocketClient) (rest : List ReadResult),
      readAux c (.wouldBlock :: rest) = (c, 1) := fun _ _ => rfl
  have hbound : ∀ (r0 : ReadResult),
      (∀ (c : WebSocketClient) (rest : List ReadResult), readAux c (r0 :: rest) = (c, 1)) →
      ∀ (pre : List ReadResult) (c : WebSocketClient) (rest : List ReadResult),
        (readAux c (pre ++ r0 :: rest)).2 ≤ pre.length + 1 := by
    intro r0 hr0 pre
    induction pre with
    | nil =>
        intro c rest
        rw [List.nil_append, hr0]
        simp
    | cons r pre ih =>
        intro c rest
        cases r with
        | readErr => simp [readAux]
        | wouldBlock => simp [readAux]
        | bytes bs =>
            cases h : is_upgrade (parseBytes c.parser bs)
            case true =>
                simp [readAux, h]
            case false =>
                simp only [List.cons_append, readAux, h, Bool.false_eq_true, if_false,
                  List.length_cons, List.append_eq]
                have := ih { c with parser := parseBytes c.parser bs } rest
                omega
  have hirrel : ∀ (r0 : ReadResult),
      (∀ (c : WebSocketClient) (rest : List ReadResult), readAux c (r0 :: rest) = (c, 1)) →
      ∀ (pre : List ReadResult) (c : WebSocketClient) (rest rest' : List ReadResult),
        readAux c (pre ++ r0 :: rest) = readAux c (pre ++ r0 :: rest') := by
    intro r0 hr0 pre
    induction pre with
    | nil =>
        intro c rest rest'
        rw [List.nil_append, List.nil_append, hr0, hr0]
    | cons r pre ih =>
        intro c rest rest'
        cases r with
        | readErr => rfl
        | wouldBlock => rfl
        | bytes bs =>
            cases h : is_upgrade (parseBytes c.parser bs)
            case true => simp [readAux, h]
            case false =>
                simp only [List.cons_append, readAux, h, Bool.false_eq_true, if_false,
                  List.append_eq]
                rw [ih { c with parser := parseBytes c.parser bs } rest rest']
  exact ⟨hstopE, hstopW, fun pre => hbound _ hstopE pre, fun pre => hbound _ hstopW pre,
    fun pre => hirrel _ hstopE pre, fun pre => hirrel _ hstopW pre⟩

/-- C10: the write dispatch path never consults the handshake state: for any
registered connection whose header map holds `Sec-WebSocket-Key`, a write
event in any state derives the key and writes the full 101 response again,
and leaves the connection `Connected`. -/
theorem write_unguarded (s : ServerState) (tok : Nat) (c : WebSocketClient) (key : List Nat)
    (hc : mapGet s.clients tok = some c)
    (hk : getHeader c.parser.headers wsKeyBytes = some key) :
    (dispatch s (.writeEv tok)).written =
      asBytes "HTTP/1.1 101 Switching Protocols\r\nConnection: Upgrade\r\nSec-WebSocket-Accept: "
        ++ gen_key key ++ asBytes "\r\nUpgrade: websocket\r\n\r\n" ∧
    ∃ s' c', (dispatch s (.writeEv tok)).next = some s' ∧
      mapGet s'.clients tok = some c' ∧ c'.state = .Connected := by
  have hw := write_response_exact c key hk
  refine ⟨by simp [dispatch, hc, hw], ?_⟩
  refine ⟨⟨s.token_counter, mapInsert s.clients tok
      { c with state := .Connected,
               interest := (c.interest.remove EventSet.writable).insert EventSet.readable }⟩,
    { c with state := .Connected,
             interest := (c.interest.remove EventSet.writable).insert EventSet.readable },
    by simp [dispatch, hc, hw], ?_, rfl⟩
  exact mapGet_insert_self s.clients tok _

theorem write_unguarded_witness :
    (dispatch connectedServer (.writeEv 1)).written =
      asBytes "HTTP/1.1 101 Switching Protocols\r\nConnection: Upgrade\r\nSec-WebSocket-Accept: "
        ++ gen_key sampleKey ++ asBytes "\r\nUpgrade: websocket\r\n\r\n" ∧
    ∃ s' c', (dispatch connectedServer (.writeEv 1)).next = some s' ∧
      mapGet s'.clients 1 = some c' ∧ c'.state = .Connected :=
  write_unguarded connectedServer 1 sampleConnected sampleKey (by decide) (by decide)

/-- C8 (counterexample): a legitimate run refuting strict forwardness — after
the handshake completes (`HandshakeResponse`), the response is written
(`Connected`), but one more delivered data byte moves the connection back to
`HandshakeResponse`: `Connected` is not terminal and `HandshakeResponse` is
revisited.  Every event used is deliverable under the registered interest. -/
theorem connected_revisited :
    stateAt cx_s2 1 = some ClientState.HandshakeResponse ∧
    stateAt cx_s3 1 = some ClientState.Connected ∧
    stateAt cx_s4 1 = some ClientState.HandshakeResponse ∧
    enabled cx_s1 cxEv2 ∧ enabled cx_s2 cxEv3 ∧ enabled cx_s3 cxEv4 := by
  refine ⟨by decide, by decide, by decide, ?_, ?_, ?_⟩
  · exact ⟨(mapGet cx_s1.clients 1).getD initialClient, by decide, by decide⟩
  · exact ⟨(mapGet cx_s2.clients 1).getD initialClient, by decide, by decide⟩
  · exact ⟨(mapGet cx_s3.clients 1).getD initialClient, by decide, by decide⟩

/-- C8 (amended): along deliverable events on reachable servers, a
connection's state never returns to `AwaitingHandshake` and moves only along
`AwaitingHandshake → HandshakeResponse → Connected`, except that a read event
delivering data to a `Connected` connection moves it back to
`HandshakeResponse`; `AwaitingHandshake` is the initial state. -/
theorem forward_transitions (s : ServerState) (e : IOEvent) (s' : ServerState)
    (hr : Reachable s) (he : enabled s e) (hn : (dispatch s e).next = some s')
    (tok : Nat) (c c' : WebSocketClient)
    (hc : mapGet s.clients tok = some c) (hc' : mapGet s'.clients tok = some c') :
    transOK c.state c'.state ∧ initialClient.state = ClientState.AwaitingHandshake := by
  refine ⟨?_, rfl⟩
  have hi := reachable_inv s hr
  cases e with
  | acceptEv o =>
      cases o with
      | acceptErr =>
          simp [dispatch] at hn
          rw [← hn] at hc'
          rw [hc] at hc'
          exact Or.inl (by rw [Option.some.inj hc'])
      | noPending => simp [dispatch] at hn
      | okSock =>
          simp [dispatch] at hn
          rw [← hn] at hc'
          have htok : tok ≠ s.token_counter := by
            have := hi.2 tok c hc
            omega
          rw [mapGet_insert_other _ _ _ _ htok] at hc'
          rw [hc] at hc'
          exact Or.inl (by rw [Option.some.inj hc'])
  | readEv tok0 script =>
      cases hg : mapGet s.clients tok0 with
      | none => simp [dispatch, hg] at hn
      | some c0 =>
          simp [dispatch, hg] at hn
          rw [← hn] at hc'
          by_cases ht : tok = tok0
          · subst ht
            rw [mapGet_insert_self] at hc'
            have hcc : c0 = c := Option.some.inj (hg.symm.trans hc)
            subst hcc
            obtain rfl : c' = (readAux c0 script).1 := (Option.some.inj hc').symm
            rcases readAux_state script c0 with ⟨h1, -⟩ | ⟨h1, -⟩
            · exact Or.inl h1
            · rw [h1]
              cases hs : c0.state
              · exact Or.inr (Or.inl ⟨rfl, rfl⟩)
              · exact Or.inl rfl
              · exact Or.inr (Or.inr (Or.inr ⟨rfl, rfl⟩))
          · rw [mapGet_insert_other _ _ _ _ ht] at hc'
            rw [hc] at hc'
            exact Or.inl (by rw [Option.some.inj hc'])
  | writeEv tok0 =>
      cases hg : mapGet s.clients tok0 with
      | none => simp [dispatch, hg] at hn
      | some c0 =>
          cases hw : c0.write with
          | none => simp [dispatch, hg, hw] at hn
          | some p =>
              obtain ⟨bs, c2⟩ := p
              simp [dispatch, hg, hw] at hn
              rw [← hn] at hc'
              by_cases ht : tok = tok0
              · subst ht
                rw [mapGet_insert_self] at hc'
                have hcc : c0 = c := Option.some.inj (hg.symm.trans hc)
                have hc2 : c2 = c' := Option.some.inj hc'
                obtain ⟨hwc, -⟩ := write_some c0 bs c2 hw
                obtain ⟨cw, hcw, hcw2⟩ := he
                have hcwc : cw = c0 := Option.some.inj (hcw.symm.trans hg)
                have hH : c0.state = .HandshakeResponse := by
                  cases hs : c0.state
                  · have h5 := (hi.1 tok c0 hg).1 (Or.inl hs)
                    rw [hcwc, h5] at hcw2
                    exact absurd hcw2 (by decide)
                  · rfl
                  · have h5 := (hi.1 tok c0 hg).1 (Or.inr hs)
                    rw [hcwc, h5] at hcw2
                    exact absurd hcw2 (by decide)
                rw [← hcc, ← hc2]
                exact Or.inr (Or.inr (Or.inl ⟨hH, hwc⟩))
              · rw [mapGet_insert_other _ _ _ _ ht] at hc'
                rw [hc] at hc'
                exact Or.inl (by rw [Option.some.inj hc'])

theorem forward_transitions_witness :
    transOK ClientState.AwaitingHandshake ClientState.AwaitingHandshake := by
  have hr1 : Reachable oneClientServer :=
    @Reachable.step initialServer (.acceptEv .okSock) oneClientServer
      Reachable.init True.intro (by decide)
  have h := forward_transitions oneClientServer (.readEv 1 []) oneClientServer hr1
    ⟨initialClient, by decide, by decide⟩ (by decide) 1 initialClient initialClient
    (by decide) (by decide)
  exact h.1
